import Mathlib

/-!
Verification of the EDGAR-Searcher core algorithms: the document chunker
(`src/backend/document_chunker.py`) and the BM25 + Reciprocal Rank Fusion
reranker (`src/backend/reranker.py`), shallowly embedded in Lean.

Python `int` values are modelled as `Int`/`Nat`, Python `float` values as `ℚ`
(the arithmetic the claims concern is exact), Python lists as `List`, and
fallible operations (division that may raise `ZeroDivisionError`, indexing
that may raise `IndexError`, loops that may not terminate) as `Option`-valued
functions, with loops driven by an explicit fuel argument.
-/

namespace EdgarSpec

/-! ### Python primitives -/

/-- Maximal runs of non-whitespace characters, accumulating the current run
in reverse in `cur`. -/
def splitWSAux (cur : List Char) : List Char → List (List Char)
  | [] => if cur = [] then [] else [cur.reverse]
  | c :: rest =>
    if c.isWhitespace then
      (if cur = [] then [] else [cur.reverse]) ++ splitWSAux [] rest
    else
      splitWSAux (c :: cur) rest

/-- Python `str.split()` with no argument: split on runs of whitespace and
drop empty pieces. -/
def pySplitWS (text : String) : List String :=
  (splitWSAux [] text.data).map List.asString

/-- Effective index of a Python slice endpoint `i` into a list of length `L`:
negative indices count from the end (clamped at 0), nonnegative ones are
clamped at `L`. -/
def pyIdx (L : Nat) (i : Int) : Nat :=
  if i < 0 then ((L : Int) + i).toNat else min i.toNat L

/-- Python slice `xs[s:e]` (step 1). -/
def pySlice {α : Type} (xs : List α) (s e : Int) : List α :=
  (xs.take (pyIdx xs.length e)).drop (pyIdx xs.length s)

/-! ### `split_text_into_chunks` (document_chunker.py lines 139-177)

The Python loop is

    while start < len(words):
        end = min(start + chunk_size, len(words))
        chunk_words = words[start:end]
        chunk_text = ' '.join(chunk_words)
        chunks.append((chunk_text, chunk_index))
        chunk_index += 1
        start = end - overlap if end < len(words) else len(words)
        if start <= chunks[-1][1] * (chunk_size - overlap) and end < len(words):
            start = end

We record each appended chunk as its `(start, end, chunk_index)` triple and
join the words at the very end (`' '.join(words[start:end])` commutes with
delaying the join, since `words` never changes inside the loop).  `start` is
an `Int` because the Python cursor can go negative when `overlap > chunk_size`.
`chunks[-1][1]` is the index of the chunk just appended, which at the guard is
the pre-increment value of `chunk_index`; the embedding uses that value
directly. -/
def splitLoop (cs ov L : Nat) : Nat → Int → Nat → List (Int × Int × Nat) →
    Option (List (Int × Int × Nat))
  | 0, _, _, _ => none
  | fuel + 1, start, ci, rev =>
    if start < (L : Int) then
      let e : Int := min (start + (cs : Int)) (L : Int)
      let rev' := (start, e, ci) :: rev
      let s1 : Int := if e < (L : Int) then e - (ov : Int) else (L : Int)
      let s2 : Int :=
        if s1 ≤ (ci : Int) * ((cs : Int) - (ov : Int)) ∧ e < (L : Int) then e else s1
      splitLoop cs ov L fuel s2 (ci + 1) rev'
    else
      some rev.reverse

/-- The `(start, end, chunk_index)` triples produced by
`split_text_into_chunks(text, chunk_size, overlap)`; `none` when `fuel`
iterations of the `while` loop do not suffice (in particular when the loop
never exits). -/
def split_ranges (fuel : Nat) (text : String) (cs ov : Nat) :
    Option (List (Int × Int × Nat)) :=
  let words := pySplitWS text
  if words = [] then some [] else splitLoop cs ov words.length fuel 0 0 []

/-- Render one recorded triple to the `(chunk_text, chunk_index)` pair the
Python function returns: `(' '.join(words[start:end]), chunk_index)`. -/
def renderChunk (words : List String) (r : Int × Int × Nat) : String × Nat :=
  (String.intercalate " " (pySlice words r.1 r.2.1), r.2.2)

/-- `split_text_into_chunks` from document_chunker.py, fuelled. -/
def split_text_into_chunks (fuel : Nat) (text : String) (cs ov : Nat) :
    Option (List (String × Nat)) :=
  (split_ranges fuel text cs ov).map (·.map (renderChunk (pySplitWS text)))

/-! ### `identify_item_sections` (document_chunker.py lines 108-136)

The Python code scans the text with

    ITEM_PATTERN = re.compile(
        r'(Item|ITEM)\s*(1A|1B|1C|2|3|4|5|6|7A|7|8|9A|9B|9|10|11|12|13|14|15|1)\b',
        re.IGNORECASE)

using `finditer` (leftmost, non-overlapping matches).  With `IGNORECASE` the
first group matches the four letters `item` in any case; `\s*` is greedy and
needs no backtracking because every alternative of group 2 starts with a
digit; group 2 tries its alternatives in the listed order and `\b` demands a
non-word character (or end of text) after the code.  Word characters and
whitespace are modelled over ASCII. -/

/-- A regex word character (`\w`): alphanumeric or underscore. -/
def isWordChar (c : Char) : Bool := c.isAlphanum || c = '_'

/-- Case-insensitive literal match of pattern `p` at the head of `t`;
returns the actually matched characters (original case) and the rest. -/
def ciMatch : List Char → List Char → Option (List Char × List Char)
  | [], t => some ([], t)
  | _ :: _, [] => none
  | p :: ps, c :: cs =>
    if c.toLower = p.toLower then
      (ciMatch ps cs).map (fun pr => (c :: pr.1, pr.2))
    else
      none

/-- The `\b` test after group 2: end of text or a non-word character next
(the character before is always alphanumeric here). -/
def atBoundary : List Char → Bool
  | [] => true
  | c :: _ => !(isWordChar c)

/-- The alternatives of group 2 of `ITEM_PATTERN`, in the order the regex
tries them. -/
def itemCodes : List String :=
  ["1A", "1B", "1C", "2", "3", "4", "5", "6", "7A", "7", "8", "9A", "9B", "9",
   "10", "11", "12", "13", "14", "15", "1"]

/-- Try the group-2 alternatives in order; an alternative succeeds when it
matches case-insensitively and the following `\b` holds. -/
def tryCodes : List String → List Char → Option (String × List Char)
  | [], _ => none
  | code :: more, t =>
    match ciMatch code.data t with
    | some (m, r) => if atBoundary r then some (m.asString, r) else tryCodes more t
    | none => tryCodes more t

/-- Attempt to match `ITEM_PATTERN` at the head of `t`: the word `item` in
any case, then greedy whitespace, then a section code with `\b`.  Returns
`match.group(2)` as matched (original case) and the unconsumed rest. -/
def matchItemAt (t : List Char) : Option (String × List Char) :=
  match ciMatch "item".data t with
  | none => none
  | some (_, r1) =>
    let r2 := r1.dropWhile Char.isWhitespace
    tryCodes itemCodes r2

/-- `re.finditer` over the text: at each position try `matchItemAt`; on a
match, emit `(match.start(), match.group(2))` and continue after the match;
otherwise advance one character.  `fuel` bounds the number of steps; every
step consumes at least one character, so `length + 1` fuel always suffices. -/
def scanItemsF : Nat → List Char → Nat → List (Nat × String)
  | 0, _, _ => []
  | _ + 1, [], _ => []
  | fuel + 1, c :: rest, pos =>
    match matchItemAt (c :: rest) with
    | some (code, r) =>
      (pos, code) :: scanItemsF fuel r (pos + (rest.length + 1 - r.length))
    | none => scanItemsF fuel rest (pos + 1)

/-- All matches of `ITEM_PATTERN` in `t` as `(start, group2)` pairs. -/
def scanItems (t : List Char) : List (Nat × String) :=
  scanItemsF (t.length + 1) t 0

/-- The `ITEM_NAMES` table of document_chunker.py. -/
def ITEM_NAMES : List (String × String) :=
  [("1", "Business"),
   ("1A", "Risk Factors"),
   ("1B", "Unresolved Staff Comments"),
   ("1C", "Cybersecurity"),
   ("2", "Properties"),
   ("3", "Legal Proceedings"),
   ("4", "Mine Safety Disclosures"),
   ("5", "Market for Registrant's Common Equity"),
   ("6", "Reserved"),
   ("7", "Management's Discussion and Analysis"),
   ("7A", "Quantitative and Qualitative Disclosures About Market Risk"),
   ("8", "Financial Statements and Supplementary Data"),
   ("9", "Changes in and Disagreements With Accountants"),
   ("9A", "Controls and Procedures"),
   ("9B", "Other Information"),
   ("10", "Directors, Executive Officers and Corporate Governance"),
   ("11", "Executive Compensation"),
   ("12", "Security Ownership"),
   ("13", "Certain Relationships and Related Transactions"),
   ("14", "Principal Accountant Fees and Services"),
   ("15", "Exhibits and Financial Statement Schedules")]

/-- `ITEM_NAMES.get(item_number, "Unknown Section")`. -/
def itemName (code : String) : String :=
  ((ITEM_NAMES.find? (fun p => p.1 == code)).map (·.2)).getD "Unknown Section"

/-- Python `str.upper()` (ASCII). -/
def pyUpper (s : String) : String := ⟨s.data.map Char.toUpper⟩

/-- The loop body of `identify_item_sections`: uppercase the matched code,
skip codes already in `seen_items`, and record
`(match.start(), item_number, item_name)` for first occurrences. -/
def dedupSections : List (Nat × String) → List String → List (Nat × String × String)
  | [], _ => []
  | (pos, code) :: rest, seen =>
    let item := pyUpper code
    if item ∈ seen then
      dedupSections rest seen
    else
      (pos, item, itemName item) :: dedupSections rest (item :: seen)

/-- `identify_item_sections` from document_chunker.py.  The final
`sections.sort(key=lambda x: x[0])` is Python's stable sort, modelled by
stable insertion sort on the position. -/
def identify_item_sections (text : String) : List (Nat × String × String) :=
  let sections := dedupSections (scanItems text.data) []
  List.insertionSort (fun a b => a.1 ≤ b.1) sections

/-! ### `DocumentChunk` and `chunk_filing` (document_chunker.py lines 50-79, 180-269)

`chunk_filing` first runs `extract_text_from_html`, which delegates to the
external BeautifulSoup library; that step is outside this repository's code,
so the embedding starts from its result and quantifies over every possible
normalized text (`text` below plays the role of
`extract_text_from_html(html_content)`). -/

/-- Python `str.strip()` (ASCII whitespace). -/
def pyStrip (s : String) : String :=
  ⟨((s.data.dropWhile Char.isWhitespace).reverse.dropWhile Char.isWhitespace).reverse⟩

/-- The `DocumentChunk` dataclass. -/
structure DocumentChunk where
  text : String
  item_number : Option String
  item_name : Option String
  chunk_index : Nat
  filing_type : String
  filing_date : String
  ticker : String
  cik : String
  accession_number : String
deriving DecidableEq

/-- `DocumentChunk.generate_id`: the f-string
`f"{self.accession_number}_{item}_{self.chunk_index}"` with
`item = self.item_number or "unknown"`. -/
def DocumentChunk.generate_id (c : DocumentChunk) : String :=
  let item := c.item_number.getD "unknown"
  c.accession_number ++ "_" ++ item ++ "_" ++ toString c.chunk_index

/-- Filing metadata threaded through chunk construction. -/
structure FilingMeta where
  ticker : String
  cik : String
  accession_number : String
  filing_date : String
  filing_type : String

/-- Build one `DocumentChunk` as the Python constructor calls do. -/
def mkChunk (m : FilingMeta) (txt : String) (num name : Option String)
    (idx : Nat) : DocumentChunk :=
  { text := txt, item_number := num, item_name := name, chunk_index := idx,
    filing_type := m.filing_type, filing_date := m.filing_date,
    ticker := m.ticker, cik := m.cik, accession_number := m.accession_number }

/-- Pair each section with its end position: the next section's start, or
`len(text)` for the last one. -/
def sectionSpans (sections : List (Nat × String × String)) (L : Nat) :
    List ((Nat × String × String) × Nat) :=
  sections.zip ((sections.map (·.1)).tail ++ [L])

/-- The per-section loop of `chunk_filing`: slice `text[start_pos:end_pos]`,
strip it, skip empty sections, window the rest, and emit chunks numbered by
the running global counter `g`. -/
def buildSectionChunks (fuel cs ov : Nat) (text : String) (m : FilingMeta) :
    List ((Nat × String × String) × Nat) → Nat → Option (List DocumentChunk)
  | [], _ => some []
  | ((pos, num, name), endPos) :: rest, g =>
    let sectionText := pyStrip ⟨(text.data.drop pos).take (endPos - pos)⟩
    if sectionText = "" then
      buildSectionChunks fuel cs ov text m rest g
    else do
      let tcs ← split_text_into_chunks fuel sectionText cs ov
      let more ← buildSectionChunks fuel cs ov text m rest (g + tcs.length)
      some (((List.enumFrom g tcs).map
        (fun p => mkChunk m p.2.1 (some num) (some name) p.1)) ++ more)

/-- `chunk_filing` from document_chunker.py, starting from the normalized
text (see the section comment).  `none` means the windowing loop inside ran
out of fuel (which only happens when the Python loop diverges). -/
def chunk_filing (fuel : Nat)
    (text ticker cik accession_number filing_date filing_type : String)
    (chunk_size overlap : Nat) : Option (List DocumentChunk) :=
  let m : FilingMeta := ⟨ticker, cik, accession_number, filing_date, filing_type⟩
  if text = "" then some [] else
  let sections := identify_item_sections text
  if sections = [] then
    (split_text_into_chunks fuel text chunk_size overlap).map (fun tcs =>
      (List.enum tcs).map (fun p => mkChunk m p.2.1 none none p.1))
  else
    buildSectionChunks fuel chunk_size overlap text m
      (sectionSpans sections text.length) 0

/-! ### `BM25Scorer` (reranker.py lines 13-108)

Scores are Python floats; the embedding computes them in `ℚ`.  The one
transcendental operation, `math.log`, is kept as an explicit function
parameter `lg : ℚ → ℚ`; theorems that depend on properties of the real
logarithm assume exactly those properties of `lg` (e.g. `0 ≤ lg x` for
`1 ≤ x`).  Python `/` on floats raises `ZeroDivisionError` for a zero
denominator, so each division whose denominator is not syntactically
guarded is modelled by `checkedDiv`. -/

/-- Division returning `none` on a zero denominator (Python
`ZeroDivisionError`). -/
def checkedDiv (x y : ℚ) : Option ℚ :=
  if y = 0 then none else some (x / y)

/-- One step of `BM25Scorer._tokenize`'s pattern
`re.findall(r'\b[a-zA-Z0-9]+\b', text.lower())` over already-lowercased
characters: maximal alphanumeric runs whose two neighbours are not word
characters.  `acc` is the current run (reversed), `okStart` whether the
run's left neighbour allowed a `\b` (the only non-alphanumeric word
character is an underscore). -/
def tokensAux (acc : List Char) (okStart : Bool) : List Char → List String
  | [] => if acc ≠ [] ∧ okStart then [acc.reverse.asString] else []
  | c :: rest =>
    if c.isAlphanum then
      tokensAux (c :: acc) okStart rest
    else
      (if acc ≠ [] ∧ okStart ∧ c ≠ '_' then [acc.reverse.asString] else []) ++
        tokensAux [] (c ≠ '_') rest

/-- `BM25Scorer._tokenize`. -/
def tokenize (text : String) : List String :=
  tokensAux [] true (text.data.map Char.toLower)

/-- The contribution of one query term to one document's BM25 score
(the body of the inner `for term in query_terms` loop): zero when the term
is absent, otherwise `idf * (tf * (k1 + 1)) / (tf + k1 * (1 - b + b *
(doc_len / avg_doc_len)))` with
`idf = lg((n - df + 0.5) / (df + 0.5) + 1)`. -/
def termScore (k1 b : ℚ) (lg : ℚ → ℚ) (n : Nat) (docTokens : List (List String))
    (avg : ℚ) (tokens : List String) (term : String) : Option ℚ :=
  let tf := tokens.count term
  if tf = 0 then some 0 else do
    let df := docTokens.countP (fun ts => term ∈ ts)
    let idf := lg (((n : ℚ) - (df : ℚ) + 1/2) / ((df : ℚ) + 1/2) + 1)
    let ratio ← checkedDiv (tokens.length : ℚ) avg
    let den := (tf : ℚ) + k1 * (1 - b + b * ratio)
    let frac ← checkedDiv ((tf : ℚ) * (k1 + 1)) den
    some (idf * frac)

/-- One document's BM25 score: the running `score += ...` over the query
terms. -/
def docScore (k1 b : ℚ) (lg : ℚ → ℚ) (n : Nat) (docTokens : List (List String))
    (avg : ℚ) (queryTerms : List String) (tokens : List String) : Option ℚ :=
  queryTerms.foldlM
    (fun acc term => (termScore k1 b lg n docTokens avg tokens term).map (acc + ·)) 0

/-- `BM25Scorer.score`.  The average document length mirrors
`sum(doc_lengths) / len(doc_lengths) if doc_lengths else 1`; the division
there is syntactically guarded by the conditional, so it is written with
total division (its denominator is provably nonzero in that branch). -/
def score (k1 b : ℚ) (lg : ℚ → ℚ) (query : String) (documents : List String) :
    Option (List ℚ) :=
  if documents = [] then some [] else
  let queryTerms := tokenize query
  if queryTerms = [] then some (List.replicate documents.length 0) else
  let docTokens := documents.map tokenize
  let docLengths := docTokens.map List.length
  let avg : ℚ :=
    if docLengths ≠ [] then (docLengths.sum : ℚ) / (docLengths.length : ℚ) else 1
  let n := documents.length
  docTokens.mapM (docScore k1 b lg n docTokens avg queryTerms)

/-! ### `Reranker.rerank` (reranker.py lines 111-194)

The results dict becomes a structure of three parallel lists; Python float
distances become `ℚ`, metadata dicts an arbitrary type `μ`.  `Reranker`
always constructs its scorer as `BM25Scorer()` with default parameters, so
`rerank` calls `score` with `k1 = 3/2`, `b = 3/4`.  Python's
`sorted(..., key=f, reverse=True)` is a stable descending sort, modelled by
stable insertion sort with the relation `f j ≤ f i`.  List indexing
`xs[i]` is modelled by `List.get?` inside `mapM` (an out-of-range index
would be an `IndexError`) where the index list is data-dependent, and by
`getD` inside the sort keys, whose indices come from `range n` by
construction. -/

/-- The query-results bundle (`'documents'`, `'metadatas'`, `'distances'`). -/
structure QueryResults (μ : Type) where
  documents : List String
  metadatas : List μ
  distances : List ℚ
deriving DecidableEq

/-- `[xs[i] for i in idxs]`, failing on an out-of-range index. -/
def projAll {α : Type} (xs : List α) : List Nat → Option (List α)
  | [] => some []
  | i :: is => do
    let x ← xs.get? i
    let rest ← projAll xs is
    some (x :: rest)

/-- Python's `sorted(range(n), key=key, reverse=True)`: a stable descending
sort by key, modelled by stable insertion sort (any two stable sorts of the
same total preorder agree, so this is extensionally Python's sort). -/
def pySortedDesc (key : Nat → ℚ) (n : Nat) : List Nat :=
  List.insertionSort (fun i j => key j ≤ key i) (List.range n)

/-- The index-selection pipeline of `Reranker.rerank` (reranker.py lines
159-185): similarity ranks are the input positions, BM25 ranks come from the
stable descending sort by BM25 score (`bm25_ranks[idx] = rank` via the
assignment loop), fused RRF scores are `1/(k + simRank) + 1/(k + lexRank)`,
and the final index list is the stable descending sort by fused score,
truncated to `n_final`.  The `1/(k + rank)` divisions use total division;
with the fixed `k = 60` of the source their denominators are positive. -/
def rerankIndices (bm25_scores : List ℚ) (k : ℚ) (n n_final : Nat) : List Nat :=
  let vector_ranks := List.range n
  let bm25_ranked_indices := pySortedDesc (fun i => bm25_scores.getD i 0) n
  let bm25_ranks : List Nat :=
    bm25_ranked_indices.enum.foldl (fun acc p => acc.set p.2 p.1)
      (List.replicate n 0)
  let rrf_scores := (List.range n).map (fun i =>
    1 / (k + (vector_ranks.getD i 0 : ℚ)) + 1 / (k + (bm25_ranks.getD i 0 : ℚ)))
  (pySortedDesc (fun i => rrf_scores.getD i 0) n).take n_final

/-- `Reranker.rerank` with RRF constant `k` (`Reranker.__init__` default 60)
and `math.log` parameter `lg`. -/
def rerank {μ : Type} (lg : ℚ → ℚ) (k : ℚ) (query : String)
    (results : QueryResults μ) (n_final : Nat) : Option (QueryResults μ) :=
  let documents := results.documents
  if documents = [] then some results else
  let n := documents.length
  do
    let bm25_scores ← score (3/2) (3/4) lg query documents
    let reranked_indices := rerankIndices bm25_scores k n n_final
    let docs ← projAll documents reranked_indices
    let metas ← projAll results.metadatas reranked_indices
    let dists ← projAll results.distances reranked_indices
    some { documents := docs, metadatas := metas, distances := dists }

/-! ### Claim C1: behaviour for `overlap ≥ windowSize` -/

/-- With `chunk_size = 1`, `overlap = 1` and three words, once the cursor
reaches 1 the loop body recreates the state `start = 1` forever: the
anti-stall guard compares against `chunks[-1][1] * (chunk_size - overlap) = 0`
and never fires again. -/
lemma splitLoop_stall : ∀ fuel (ci : Nat) (rev : List (Int × Int × Nat)),
    splitLoop 1 1 3 fuel 1 ci rev = none := by
  intro fuel
  induction fuel with
  | zero => intro ci rev; rfl
  | succ n ih =>
    intro ci rev
    rw [splitLoop]
    have h1 : ((1 : Int) < (3 : Nat)) = True := by norm_num
    simp only [h1, if_true]
    have e2 : min ((1 : Int) + (1 : Nat)) ((3 : Nat) : Int) = 2 := by norm_num
    have hlt : ((2 : Int) < ((3 : Nat) : Int)) = True := by norm_num
    have hg : ¬((2 : Int) - (1 : Nat) ≤ (ci : Int) * ((1 : Nat) - (1 : Nat) : Int) ∧
        (2 : Int) < ((3 : Nat) : Int)) := by
      push_cast
      intro h
      omega
    rw [e2]
    simp only [hlt, if_true, hg, if_false]
    have : (2 : Int) - (1 : Nat) = 1 := by norm_num
    rw [this]
    exact ih _ _

/-- The claim C1 asserts that for `overlap ≥ windowSize ≥ 1` the loop
terminates with `ceil(L / windowSize)` windows.  On `"a b c"` with
`windowSize = overlap = 1` the Python loop never terminates: no amount of
fuel makes the embedded loop return.  (The source's own comment says the
final `if` is there to "prevent infinite loop if overlap >= chunk_size",
so the code contradicts its stated intent: this is a code bug.) -/
theorem claim1_overlap_ge_windowsize_diverges :
    ∀ fuel, split_text_into_chunks fuel "a b c" 1 1 = none := by
  intro fuel
  have hw : pySplitWS "a b c" = ["a", "b", "c"] := by decide
  unfold split_text_into_chunks split_ranges
  rw [hw]
  have hne : (["a", "b", "c"] = ([] : List String)) = False := by simp
  simp only [hne, if_false, List.length]
  cases fuel with
  | zero => rfl
  | succ n =>
    rw [splitLoop]
    norm_num
    exact splitLoop_stall n 1 [(0, 1, 0)]

/-! ### Claim C8: BM25 on empty inputs -/

/-- The claim C8: `BM25Scorer.score` handles empty inputs without error: an
empty candidate list yields `[]` for every query, and for a non-empty
candidate list a query with no tokens yields one score per document, each
exactly 0. -/
theorem claim8_bm25_empty_inputs (k1 b : ℚ) (lg : ℚ → ℚ) (q : String)
    (docs : List String) :
    score k1 b lg q [] = some [] ∧
    (docs ≠ [] → tokenize q = [] →
      score k1 b lg q docs = some (List.replicate docs.length 0)) := by
  constructor
  · simp [score]
  · intro hd hq
    simp [score, hd, hq]

/-- Witness for C8 at concrete inputs: empty candidate list, and the query
`"!!!"` (which tokenizes to nothing) against one document. -/
theorem claim8_witness :
    score (3/2) (3/4) id "q" [] = some [] ∧
    score (3/2) (3/4) id "!!!" ["a"] = some (List.replicate (["a"] : List String).length 0) :=
  ⟨(claim8_bm25_empty_inputs (3/2) (3/4) id "q" []).1,
   (claim8_bm25_empty_inputs (3/2) (3/4) id "!!!" ["a"]).2 (by decide) (by decide)⟩

/-! ### Claim C9: determinism and stable identifiers -/

/-- The claim C9: `chunk_filing` is a pure function (identical inputs give
identical chunk lists), and `generate_id` depends only on the accession
number, the item number (or the literal `"unknown"`) and the chunk index,
so equal triples always give equal identifiers. -/
theorem claim9_chunk_determinism :
    (∀ fuel text tk ck acc fd ft cs ov,
      chunk_filing fuel text tk ck acc fd ft cs ov =
        chunk_filing fuel text tk ck acc fd ft cs ov) ∧
    (∀ c₁ c₂ : DocumentChunk,
      c₁.accession_number = c₂.accession_number →
      c₁.item_number = c₂.item_number →
      c₁.chunk_index = c₂.chunk_index →
      c₁.generate_id = c₂.generate_id) := by
  refine ⟨fun _ _ _ _ _ _ _ _ _ => rfl, fun c₁ c₂ h1 h2 h3 => ?_⟩
  simp only [DocumentChunk.generate_id, h1, h2, h3]

/-- Two chunks that agree on the identifier triple but have different text. -/
def chunkW1 : DocumentChunk :=
  { text := "first text", item_number := some "1A", item_name := some "Risk Factors",
    chunk_index := 7, filing_type := "10-K", filing_date := "2024-01-01",
    ticker := "T", cik := "1", accession_number := "acc" }

/-- Companion chunk for the C9 witness, same triple, different payload. -/
def chunkW2 : DocumentChunk :=
  { text := "second text", item_number := some "1A", item_name := some "Other",
    chunk_index := 7, filing_type := "10-Q", filing_date := "2024-02-02",
    ticker := "U", cik := "2", accession_number := "acc" }

/-- Witness for C9: a concrete `chunk_filing` run compared with itself, and
the identifiers of `chunkW1`/`chunkW2` (equal triple, different payload). -/
theorem claim9_witness :
    chunk_filing 10 "hello world" "t" "c" "a" "d" "f" 2 1 =
      chunk_filing 10 "hello world" "t" "c" "a" "d" "f" 2 1 ∧
    chunkW1.generate_id = chunkW2.generate_id :=
  ⟨claim9_chunk_determinism.1 10 "hello world" "t" "c" "a" "d" "f" 2 1,
   claim9_chunk_determinism.2 chunkW1 chunkW2 rfl rfl rfl⟩

/-! ### Claim C6: Section Locator invariants -/

/-- No library lemma in this toolchain: `dropWhile` never lengthens. -/
lemma dropWhile_length_le (p : Char → Bool) (l : List Char) :
    (l.dropWhile p).length ≤ l.length := by
  induction l with
  | nil => simp
  | cons c cs ih =>
    rw [List.dropWhile]
    split
    · simp only [List.length_cons]; omega
    · simp

/-- A successful case-insensitive literal match consumes exactly the
pattern's length. -/
lemma ciMatch_length : ∀ (p t m r : List Char),
    ciMatch p t = some (m, r) → r.length + p.length = t.length := by
  intro p
  induction p with
  | nil =>
    intro t m r h
    simp only [ciMatch, Option.some.injEq, Prod.mk.injEq] at h
    obtain ⟨h1, h2⟩ := h
    subst h2
    simp
  | cons c cs ih =>
    intro t m r h
    cases t with
    | nil => simp [ciMatch] at h
    | cons a as =>
      simp only [ciMatch] at h
      split at h
      · cases h1 : ciMatch cs as with
        | none => rw [h1] at h; simp at h
        | some pr =>
          rw [h1] at h
          simp only [Option.map_some', Option.some.injEq, Prod.mk.injEq] at h
          have := ih as pr.1 pr.2 (by rw [h1])
          rw [← h.2]
          simp only [List.length_cons]
          omega
      · exact absurd h (by simp)

/-- `tryCodes` never returns a rest longer than its input. -/
lemma tryCodes_length : ∀ (codes : List String) (t : List Char) (m : String)
    (r : List Char), tryCodes codes t = some (m, r) → r.length ≤ t.length := by
  intro codes
  induction codes with
  | nil => intro t m r h; simp [tryCodes] at h
  | cons code more ih =>
    intro t m r h
    rw [tryCodes] at h
    cases h1 : ciMatch code.data t with
    | none => rw [h1] at h; exact ih t m r h
    | some pr =>
      obtain ⟨m', r'⟩ := pr
      rw [h1] at h
      simp only at h
      by_cases hb : atBoundary r' = true
      · rw [if_pos hb] at h
        simp only [Option.some.injEq, Prod.mk.injEq] at h
        obtain ⟨hm, hr⟩ := h
        subst hr
        have := ciMatch_length code.data t m' r' h1
        omega
      · rw [if_neg hb] at h
        exact ih t m r h

/-- A match of `ITEM_PATTERN` consumes at least one character (in fact at
least five). -/
lemma matchItemAt_length : ∀ (t : List Char) (code : String) (r : List Char),
    matchItemAt t = some (code, r) → r.length < t.length := by
  intro t code r h
  rw [matchItemAt] at h
  cases h1 : ciMatch "item".data t with
  | none => rw [h1] at h; simp at h
  | some pr =>
    obtain ⟨m1, r1⟩ := pr
    rw [h1] at h
    simp only at h
    have hl1 := ciMatch_length "item".data t m1 r1 h1
    have hl2 : (r1.dropWhile Char.isWhitespace).length ≤ r1.length :=
      dropWhile_length_le Char.isWhitespace r1
    have hl3 := tryCodes_length itemCodes (r1.dropWhile Char.isWhitespace) code r h
    have h4 : ("item".data).length = 4 := rfl
    omega

/-- Positions emitted by the finditer scan are at least the starting
position and strictly increasing. -/
lemma scanItemsF_mono : ∀ (fuel : Nat) (t : List Char) (pos : Nat),
    (∀ q ∈ (scanItemsF fuel t pos).map Prod.fst, pos ≤ q) ∧
    ((scanItemsF fuel t pos).map Prod.fst).Pairwise (· < ·) := by
  intro fuel
  induction fuel with
  | zero => intro t pos; simp [scanItemsF]
  | succ n ih =>
    intro t pos
    cases t with
    | nil => simp [scanItemsF]
    | cons c rest =>
      rw [scanItemsF]
      cases h : matchItemAt (c :: rest) with
      | none =>
        simp only
        obtain ⟨ih1, ih2⟩ := ih rest (pos + 1)
        exact ⟨fun q hq => le_trans (by omega) (ih1 q hq), ih2⟩
      | some cr =>
        obtain ⟨code, r⟩ := cr
        simp only
        have hlen := matchItemAt_length (c :: rest) code r h
        simp only [List.length_cons] at hlen
        obtain ⟨ih1, ih2⟩ := ih r (pos + (rest.length + 1 - r.length))
        constructor
        · intro q hq
          simp only [List.map_cons, List.mem_cons] at hq
          rcases hq with h0 | h0
          · omega
          · have := ih1 q h0; omega
        · simp only [List.map_cons, List.pairwise_cons]
          exact ⟨fun q hq => lt_of_lt_of_le (by omega) (ih1 q hq), ih2⟩

/-- Deduplication only drops elements, so the positions of its output form
a sublist of the input positions. -/
lemma dedupSections_fst_sublist : ∀ (l : List (Nat × String)) (seen : List String),
    ((dedupSections l seen).map (·.1)).Sublist (l.map Prod.fst) := by
  intro l
  induction l with
  | nil => intro seen; simp [dedupSections]
  | cons p rest ih =>
    intro seen
    obtain ⟨pos, code⟩ := p
    rw [dedupSections]
    by_cases hs : pyUpper code ∈ seen
    · rw [if_pos hs]
      exact (ih seen).trans (List.sublist_cons_self _ _)
    · rw [if_neg hs]
      simpa using (ih (pyUpper code :: seen)).cons₂ pos

/-- Deduplication emits no item number twice and nothing already seen. -/
lemma dedupSections_ids_nodup : ∀ (l : List (Nat × String)) (seen : List String),
    ((dedupSections l seen).map (·.2.1)).Nodup ∧
    ∀ s ∈ (dedupSections l seen).map (·.2.1), s ∉ seen := by
  intro l
  induction l with
  | nil => intro seen; simp [dedupSections]
  | cons p rest ih =>
    intro seen
    obtain ⟨pos, code⟩ := p
    rw [dedupSections]
    by_cases hs : pyUpper code ∈ seen
    · rw [if_pos hs]; exact ih seen
    · rw [if_neg hs]
      obtain ⟨ih1, ih2⟩ := ih (pyUpper code :: seen)
      simp only [List.map_cons, List.nodup_cons, List.mem_cons]
      refine ⟨⟨fun hmem => ?_, ih1⟩, fun s hmem => ?_⟩
      · exact (ih2 _ hmem) (by simp)
      · rcases hmem with h | h
        · rw [h]; exact hs
        · intro hseen; exact (ih2 s h) (by simp [hseen])

/-- The claim C6: `identify_item_sections` never emits two boundaries with
the same section id (after case normalization), and boundary positions are
strictly increasing. -/
theorem claim6_sections_nodup_sorted (text : String) :
    ((identify_item_sections text).map (·.1)).Pairwise (· < ·) ∧
    ((identify_item_sections text).map (·.2.1)).Nodup := by
  unfold identify_item_sections
  have hpair : ((dedupSections (scanItems text.data) []).map (·.1)).Pairwise (· < ·) :=
    List.Pairwise.sublist (dedupSections_fst_sublist (scanItems text.data) [])
      (scanItemsF_mono (text.data.length + 1) text.data 0).2
  have hsorted : List.Sorted (fun a b : Nat × String × String => a.1 ≤ b.1)
      (dedupSections (scanItems text.data) []) := by
    rw [List.Sorted]
    have := (List.pairwise_map (l := dedupSections (scanItems text.data) [])
      (f := (·.1)) (R := (· < · : Nat → Nat → Prop))).mp hpair
    exact this.imp (fun h => le_of_lt h)
  rw [List.Sorted.insertionSort_eq hsorted]
  exact ⟨hpair, (dedupSections_ids_nodup (scanItems text.data) []).1⟩

/-! ### Claim C5: contiguous global sequence index -/

/-- Chunks built from an enumeration starting at `g` carry the indices
`g, g+1, ...` in order. -/
lemma chunkIdx_enumFrom (m : FilingMeta) (a b : Option String) (g : Nat)
    (tcs : List (String × Nat)) :
    (((List.enumFrom g tcs).map (fun p => mkChunk m p.2.1 a b p.1)).map
      (·.chunk_index)) = List.range' g tcs.length := by
  rw [List.map_map]
  have hc : ((fun c : DocumentChunk => c.chunk_index) ∘
      fun p : Nat × String × Nat => mkChunk m p.2.1 a b p.1) = Prod.fst := rfl
  rw [hc, List.enumFrom_map_fst]

/-- Concatenating two consecutive index ranges. -/
lemma range'_glue (g a bn : Nat) :
    List.range' g a ++ List.range' (g + a) bn = List.range' g (a + bn) := by
  have h := List.range'_append g a bn 1
  rw [Nat.one_mul] at h
  rw [h, Nat.add_comm]

/-- The section loop numbers its output contiguously from the running
counter, no matter which sections are skipped. -/
lemma buildSectionChunks_idx (fuel cs ov : Nat) (text : String) (m : FilingMeta) :
    ∀ (spans : List ((Nat × String × String) × Nat)) (g : Nat)
      (out : List DocumentChunk),
      buildSectionChunks fuel cs ov text m spans g = some out →
      out.map (·.chunk_index) = List.range' g out.length := by
  intro spans
  induction spans with
  | nil =>
    intro g out h
    simp only [buildSectionChunks, Option.some.injEq] at h
    subst h
    simp
  | cons span rest ih =>
    intro g out h
    obtain ⟨⟨pos, num, name⟩, endPos⟩ := span
    rw [buildSectionChunks] at h
    by_cases hempty : pyStrip ⟨(text.data.drop pos).take (endPos - pos)⟩ = ""
    · rw [if_pos hempty] at h
      exact ih g out h
    · rw [if_neg hempty] at h
      cases hs : split_text_into_chunks fuel
          (pyStrip ⟨(text.data.drop pos).take (endPos - pos)⟩) cs ov with
      | none => rw [hs] at h; simp at h
      | some tcs =>
        rw [hs] at h
        simp only [Option.bind_eq_bind, Option.some_bind] at h
        cases hm : buildSectionChunks fuel cs ov text m rest (g + tcs.length) with
        | none => rw [hm] at h; simp at h
        | some more =>
          rw [hm] at h
          simp only [Option.some_bind, Option.some.injEq] at h
          subst h
          have h1 := chunkIdx_enumFrom m (some num) (some name) g tcs
          have h2 := ih (g + tcs.length) more hm
          rw [List.map_append, h1, h2, List.length_append, List.length_map,
            List.enumFrom_length]
          exact range'_glue g tcs.length more.length

/-- The claim C5: every successful `chunk_filing` run numbers its chunks
contiguously from 0 in output order (the i-th chunk has `chunk_index = i`;
sections skipped as empty do not advance the counter, which is exactly what
contiguity of the emitted indices expresses), and when no section boundary
is detected every chunk has a null item number and item name. -/
theorem claim5_chunk_index_contiguous (fuel : Nat)
    (text tk ck acc fd ft : String) (cs ov : Nat) (chunks : List DocumentChunk)
    (h : chunk_filing fuel text tk ck acc fd ft cs ov = some chunks) :
    chunks.map (·.chunk_index) = List.range chunks.length ∧
    (identify_item_sections text = [] →
      ∀ c ∈ chunks, c.item_number = none ∧ c.item_name = none) := by
  rw [chunk_filing] at h
  by_cases htext : text = ""
  · rw [if_pos htext] at h
    simp only [Option.some.injEq] at h
    subst h
    simp
  · rw [if_neg htext] at h
    by_cases hsec : identify_item_sections text = []
    · rw [if_pos hsec] at h
      cases hs : split_text_into_chunks fuel text cs ov with
      | none => rw [hs] at h; simp at h
      | some tcs =>
        rw [hs] at h
        simp only [Option.map_some', Option.some.injEq] at h
        subst h
        constructor
        · have h1 : List.enum tcs = List.enumFrom 0 tcs := rfl
          rw [h1, chunkIdx_enumFrom, List.length_map, List.enumFrom_length]
          rw [List.range_eq_range']
        · intro _ c hc
          simp only [List.mem_map] at hc
          obtain ⟨p, _, hp⟩ := hc
          rw [← hp]
          exact ⟨rfl, rfl⟩
    · rw [if_neg hsec] at h
      refine ⟨?_, fun hcontra => absurd hcontra hsec⟩
      have := buildSectionChunks_idx fuel cs ov text
        ⟨tk, ck, acc, fd, ft⟩ (sectionSpans (identify_item_sections text) text.length)
        0 chunks h
      rw [this, List.range_eq_range']

/-- Concrete output of `chunk_filing` for the C5 witness run. -/
def chunksW5 : List DocumentChunk :=
  [{ text := "hello world", item_number := none, item_name := none,
     chunk_index := 0, filing_type := "f", filing_date := "d", ticker := "t",
     cik := "c", accession_number := "a" },
   { text := "foo", item_number := none, item_name := none,
     chunk_index := 1, filing_type := "f", filing_date := "d", ticker := "t",
     cik := "c", accession_number := "a" }]

/-- Witness for C5: a concrete sectionless document whose two chunks carry
indices `[0, 1]` and null section labels. -/
theorem claim5_witness :
    chunk_filing 10 "hello world foo" "t" "c" "a" "d" "f" 2 0 = some chunksW5 ∧
    (chunksW5.map (·.chunk_index) = List.range chunksW5.length ∧
      (identify_item_sections "hello world foo" = [] →
        ∀ c ∈ chunksW5, c.item_number = none ∧ c.item_name = none)) :=
  have h : chunk_filing 10 "hello world foo" "t" "c" "a" "d" "f" 2 0 = some chunksW5 := by
    decide
  ⟨h, claim5_chunk_index_contiguous 10 "hello world foo" "t" "c" "a" "d" "f" 2 0
    chunksW5 h⟩

/-! ### Claim C3: windowing for `overlap < windowSize` -/

/-- Invariant characterisation of the windowing loop for `overlap < chunkSize`. -/
lemma splitLoop_spec (cs ov L : Nat) (hov : ov < cs) :
    ∀ (fuel k : Nat) (rev : List (Int × Int × Nat)),
      k * (cs - ov) < L →
      L + 2 ≤ fuel + k * (cs - ov) →
      ∃ tail : List (Int × Int × Nat),
        splitLoop cs ov L fuel ((k * (cs - ov) : Nat) : Int) k rev =
          some (rev.reverse ++ tail) ∧
        tail ≠ [] ∧
        (∀ r, tail.head? = some r →
          r.1 = ((k * (cs - ov) : Nat) : Int) ∧
          r.2.1 = min (((k * (cs - ov) : Nat) : Int) + (cs : Int)) (L : Int)) ∧
        (∀ j : Nat, k * (cs - ov) ≤ j → j < L →
          ∃ r ∈ tail, r.1 ≤ (j : Int) ∧ (j : Int) < r.2.1) ∧
        List.Chain' (fun a b => a.1 ≤ b.1 ∧ b.1 ≤ a.2.1 ∧ a.2.1 ≤ b.2.1 ∧
          a.2.1 - b.1 = (ov : Int)) tail := by
  intro fuel
  induction fuel with
  | zero =>
    intro k rev hk hfuel
    omega
  | succ n ih =>
    intro k rev hk hfuel
    have hd1 : 1 ≤ cs - ov := by omega
    have hcond : ((k * (cs - ov) : Nat) : Int) < (L : Int) := by exact_mod_cast hk
    rw [splitLoop, if_pos hcond]
    by_cases hcase : L ≤ k * (cs - ov) + cs
    · -- final window: e = L, loop exits at the next check
      have he : min (((k * (cs - ov) : Nat) : Int) + (cs : Int)) (L : Int) = (L : Int) := by
        rw [min_eq_right]
        push_cast
        omega
      rw [he]
      dsimp only
      have hnlt : ¬((L : Int) < (L : Int)) := lt_irrefl _
      rw [if_neg hnlt, if_neg (fun h => hnlt h.2)]
      obtain ⟨n', rfl⟩ : ∃ n', n = n' + 1 := ⟨n - 1, by omega⟩
      rw [splitLoop, if_neg (lt_irrefl _)]
      refine ⟨[(((k * (cs - ov) : Nat) : Int), (L : Int), k)], by simp, by simp, ?_, ?_, by simp⟩
      · intro r hr
        simp only [List.head?_cons, Option.some.injEq] at hr
        subst hr
        exact ⟨rfl, rfl⟩
      · intro j hj1 hj2
        refine ⟨_, List.mem_singleton_self _, ?_, ?_⟩
        · show ((k * (cs - ov) : Nat) : Int) ≤ (j : Int)
          exact_mod_cast hj1
        · show (j : Int) < (L : Int)
          exact_mod_cast hj2
    · -- intermediate window: e = start + cs < L
      push_neg at hcase
      have he : min (((k * (cs - ov) : Nat) : Int) + (cs : Int)) (L : Int) =
          ((k * (cs - ov) + cs : Nat) : Int) := by
        rw [min_eq_left]
        · push_cast; ring
        · push_cast; omega
      rw [he]
      dsimp only
      have helt : ((k * (cs - ov) + cs : Nat) : Int) < (L : Int) := by exact_mod_cast hcase
      rw [if_pos helt]
      have hs1 : ((k * (cs - ov) + cs : Nat) : Int) - (ov : Int) =
          (((k + 1) * (cs - ov) : Nat) : Int) := by
        have hnat : (k + 1) * (cs - ov) = k * (cs - ov) + cs - ov := by
          rw [Nat.succ_mul]
          omega
        have hle : ov ≤ k * (cs - ov) + cs := by omega
        rw [hnat, Nat.cast_sub hle]
      have hcast : ((k * (cs - ov) : Nat) : Int) =
          (k : Int) * ((cs : Int) - (ov : Int)) := by
        rw [Nat.cast_mul, Nat.cast_sub (Nat.le_of_lt hov)]
      have hguard : ¬(((k * (cs - ov) + cs : Nat) : Int) - (ov : Int) ≤
          (k : Int) * ((cs : Int) - (ov : Int)) ∧
          ((k * (cs - ov) + cs : Nat) : Int) < (L : Int)) := by
        rintro ⟨h1, _⟩
        rw [hs1, ← hcast, Nat.cast_le] at h1
        rw [Nat.succ_mul] at h1
        omega
      rw [if_neg hguard, hs1]
      have hklt : (k + 1) * (cs - ov) < L := by
        rw [Nat.succ_mul]
        omega
      have hfuel' : L + 2 ≤ n + (k + 1) * (cs - ov) := by
        rw [Nat.succ_mul]
        omega
      obtain ⟨tail', hloop, hne, hhead, hcov, hchain⟩ := ih (k + 1)
        ((((k * (cs - ov) : Nat) : Int), ((k * (cs - ov) + cs : Nat) : Int), k) :: rev)
        hklt hfuel'
      refine ⟨(((k * (cs - ov) : Nat) : Int), ((k * (cs - ov) + cs : Nat) : Int), k)
        :: tail', ?_, by simp, ?_, ?_, ?_⟩
      · rw [hloop]
        simp
      · intro r hr
        simp only [List.head?_cons, Option.some.injEq] at hr
        subst hr
        exact ⟨rfl, rfl⟩
      · intro j hj1 hj2
        by_cases hj3 : j < k * (cs - ov) + cs
        · refine ⟨_, List.mem_cons_self _ _, ?_, ?_⟩
          · show ((k * (cs - ov) : Nat) : Int) ≤ (j : Int)
            exact_mod_cast hj1
          · show (j : Int) < ((k * (cs - ov) + cs : Nat) : Int)
            exact_mod_cast hj3
        · push_neg at hj3
          have hj4 : (k + 1) * (cs - ov) ≤ j := by
            rw [Nat.succ_mul]
            omega
          obtain ⟨r, hrmem, hr1, hr2⟩ := hcov j hj4 hj2
          exact ⟨r, List.mem_cons_of_mem _ hrmem, hr1, hr2⟩
      · rw [List.chain'_cons']
        refine ⟨?_, hchain⟩
        intro b hb
        obtain ⟨hb1, hb2⟩ := hhead b hb
        have hle2 : (k + 1) * (cs - ov) ≤ k * (cs - ov) + cs := by
          rw [Nat.succ_mul]
          omega
        refine ⟨?_, ?_, ?_, ?_⟩
        · rw [hb1, Nat.cast_le]
          rw [Nat.succ_mul]
          omega
        · rw [hb1]
          show (((k + 1) * (cs - ov) : Nat) : Int) ≤ ((k * (cs - ov) + cs : Nat) : Int)
          rw [Nat.cast_le]
          exact hle2
        · rw [hb2, le_min_iff]
          constructor
          · show ((k * (cs - ov) + cs : Nat) : Int) ≤ (((k + 1) * (cs - ov) : Nat) : Int) + (cs : Int)
            have : (((k + 1) * (cs - ov) : Nat) : Int) + (cs : Int) =
                (((k + 1) * (cs - ov) + cs : Nat) : Int) := by push_cast; ring
            rw [this, Nat.cast_le, Nat.succ_mul]
            omega
          · exact le_of_lt helt
        · rw [hb1]
          show ((k * (cs - ov) + cs : Nat) : Int) - (((k + 1) * (cs - ov) : Nat) : Int) = (ov : Int)
          rw [← Nat.cast_sub hle2]
          have : k * (cs - ov) + cs - (k + 1) * (cs - ov) = ov := by
            rw [Nat.succ_mul]
            omega
          rw [this]

/-- Overlapping-interval cardinality: under the chain relation below,
consecutive windows share exactly `ov` word indices. -/
lemma chain_card_of_chain (ov : Nat) (res : List (Int × Int × Nat))
    (h : List.Chain' (fun a b => a.1 ≤ b.1 ∧ b.1 ≤ a.2.1 ∧ a.2.1 ≤ b.2.1 ∧
      a.2.1 - b.1 = (ov : Int)) res) :
    List.Chain' (fun a b =>
      ((Finset.Ico a.1 a.2.1) ∩ (Finset.Ico b.1 b.2.1)).card = ov) res := by
  refine h.imp ?_
  rintro a b ⟨h1, h2, h3, h4⟩
  rw [Finset.Ico_inter_Ico]
  have hmax : max a.1 b.1 = b.1 := max_eq_right h1
  have hmin : min a.2.1 b.2.1 = a.2.1 := min_eq_left h3
  rw [hmax, hmin, Int.card_Ico, h4]
  exact Int.toNat_natCast ov

/-- The claim C3: for non-empty word lists and `0 ≤ overlap < windowSize`,
`split_text_into_chunks` terminates (fuel `L + 2` suffices), produces at
least one window, the windows' word ranges `[start, end)` cover every word
index with no gaps, and every pair of consecutive windows shares exactly
`overlap` word indices (so in particular "except possibly at the last
window" holds).  `split_ranges` records the `(start, end, index)` triples
from which `split_text_into_chunks` renders its output. -/
theorem claim3_window_coverage (text : String) (cs ov : Nat)
    (hne : pySplitWS text ≠ []) (_hcs : 1 ≤ cs) (hov : ov < cs) :
    ∃ res : List (Int × Int × Nat),
      split_ranges ((pySplitWS text).length + 2) text cs ov = some res ∧
      res ≠ [] ∧
      (∀ j : Nat, j < (pySplitWS text).length →
        ∃ r ∈ res, r.1 ≤ (j : Int) ∧ (j : Int) < r.2.1) ∧
      List.Chain' (fun a b => a.1 ≤ b.1 ∧ b.1 ≤ a.2.1 ∧ a.2.1 ≤ b.2.1 ∧
        a.2.1 - b.1 = (ov : Int)) res ∧
      List.Chain' (fun a b =>
        ((Finset.Ico a.1 a.2.1) ∩ (Finset.Ico b.1 b.2.1)).card = ov) res ∧
      ∃ out, split_text_into_chunks ((pySplitWS text).length + 2) text cs ov =
        some out ∧ out ≠ [] := by
  have hL : 0 < (pySplitWS text).length := List.length_pos.mpr hne
  have h0 : 0 * (cs - ov) < (pySplitWS text).length := by
    rw [Nat.zero_mul]
    exact hL
  have hfuel : (pySplitWS text).length + 2 ≤
      ((pySplitWS text).length + 2) + 0 * (cs - ov) := by omega
  obtain ⟨tail, hloop, hne', hhead, hcov, hchain⟩ :=
    splitLoop_spec cs ov (pySplitWS text).length hov
      ((pySplitWS text).length + 2) 0 [] h0 hfuel
  have hzero : ((0 * (cs - ov) : Nat) : Int) = (0 : Int) := by
    rw [Nat.zero_mul]
    rfl
  rw [hzero] at hloop
  have hranges : split_ranges ((pySplitWS text).length + 2) text cs ov = some tail := by
    rw [split_ranges]
    rw [if_neg hne, hloop]
    simp
  refine ⟨tail, hranges, hne', ?_, hchain, chain_card_of_chain ov tail hchain, ?_⟩
  · intro j hj
    exact hcov j (by omega) hj
  · refine ⟨tail.map (renderChunk (pySplitWS text)), ?_, ?_⟩
    · rw [split_text_into_chunks, hranges]
      rfl
    · simp only [ne_eq, List.map_eq_nil_iff]
      exact hne'

/-- Witness for C3 on the concrete text `"a b c d e"` with `windowSize = 2`
and `overlap = 1`. -/
theorem claim3_witness :
    ∃ res : List (Int × Int × Nat),
      split_ranges ((pySplitWS "a b c d e").length + 2) "a b c d e" 2 1 = some res ∧
      res ≠ [] := by
  obtain ⟨res, h1, h2, _⟩ :=
    claim3_window_coverage "a b c d e" 2 1 (by decide) (by decide) (by decide)
  exact ⟨res, h1, h2⟩

/-! ### Claim C7: BM25 safety and non-negativity -/

/-- Totality of one query term's contribution, for `0 ≤ k1`, `0 ≤ b ≤ 1`,
`df ≤ n`, and a positive average length whenever the term occurs; the value
is non-negative whenever the logarithm is non-negative on `[1, ∞)`. -/
lemma termScore_ok (k1 b : ℚ) (lg : ℚ → ℚ) (n : Nat) (docTokens : List (List String))
    (avg : ℚ) (tokens : List String) (term : String)
    (hk1 : 0 ≤ k1) (hb0 : 0 ≤ b) (hb1 : b ≤ 1)
    (hdf : docTokens.countP (fun ts => term ∈ ts) ≤ n)
    (havg : 0 < tokens.count term → 0 < avg) :
    ∃ v, termScore k1 b lg n docTokens avg tokens term = some v ∧
      ((∀ x : ℚ, 1 ≤ x → 0 ≤ lg x) → 0 ≤ v) := by
  rw [termScore]
  by_cases htf : tokens.count term = 0
  · rw [if_pos htf]
    exact ⟨0, rfl, fun _ => le_refl 0⟩
  · rw [if_neg htf]
    have htf1 : 1 ≤ tokens.count term := Nat.one_le_iff_ne_zero.mpr htf
    have havg' : 0 < avg := havg (by omega)
    have hratio : checkedDiv (tokens.length : ℚ) avg =
        some ((tokens.length : ℚ) / avg) := by
      rw [checkedDiv, if_neg (ne_of_gt havg')]
    have hratio0 : 0 ≤ (tokens.length : ℚ) / avg :=
      div_nonneg (by positivity) (le_of_lt havg')
    set den : ℚ := (tokens.count term : ℚ) +
      k1 * (1 - b + b * ((tokens.length : ℚ) / avg)) with hden
    have hden0 : 0 < den := by
      have h1 : (1 : ℚ) ≤ (tokens.count term : ℚ) := by exact_mod_cast htf1
      have h2 : 0 ≤ k1 * (1 - b + b * ((tokens.length : ℚ) / avg)) := by
        apply mul_nonneg hk1
        have : 0 ≤ b * ((tokens.length : ℚ) / avg) := mul_nonneg hb0 hratio0
        linarith
      rw [hden]
      linarith
    have hfrac : checkedDiv ((tokens.count term : ℚ) * (k1 + 1)) den =
        some ((tokens.count term : ℚ) * (k1 + 1) / den) := by
      rw [checkedDiv, if_neg (ne_of_gt hden0)]
    have hfrac0 : 0 ≤ (tokens.count term : ℚ) * (k1 + 1) / den := by
      apply div_nonneg _ (le_of_lt hden0)
      apply mul_nonneg (by positivity)
      linarith
    have hidf : ∀ (_hlg : ∀ x : ℚ, 1 ≤ x → 0 ≤ lg x),
        0 ≤ lg (((n : ℚ) - (docTokens.countP (fun ts => term ∈ ts) : ℚ) + 1/2) /
        ((docTokens.countP (fun ts => term ∈ ts) : ℚ) + 1/2) + 1) := by
      intro hlg
      apply hlg
      have hnum : (0 : ℚ) ≤ (n : ℚ) - (docTokens.countP (fun ts => term ∈ ts) : ℚ) + 1/2 := by
        have : (docTokens.countP (fun ts => term ∈ ts) : ℚ) ≤ (n : ℚ) := by
          exact_mod_cast hdf
        linarith
      have hpos : (0 : ℚ) < (docTokens.countP (fun ts => term ∈ ts) : ℚ) + 1/2 := by
        positivity
      have : 0 ≤ ((n : ℚ) - (docTokens.countP (fun ts => term ∈ ts) : ℚ) + 1/2) /
          ((docTokens.countP (fun ts => term ∈ ts) : ℚ) + 1/2) :=
        div_nonneg hnum (le_of_lt hpos)
      linarith
    refine ⟨_, ?_, fun hlg => mul_nonneg (hidf hlg) hfrac0⟩
    simp only [Option.bind_eq_bind]
    rw [hratio]
    simp only [Option.some_bind]
    rw [hfrac]
    simp only [Option.some_bind]

/-- Totality of one document's accumulated score; non-negativity under a
logarithm non-negative on `[1, ∞)`. -/
lemma docScore_ok (k1 b : ℚ) (lg : ℚ → ℚ) (n : Nat) (docTokens : List (List String))
    (avg : ℚ) (tokens : List String)
    (hk1 : 0 ≤ k1) (hb0 : 0 ≤ b) (hb1 : b ≤ 1)
    (hdf : ∀ term : String, docTokens.countP (fun ts => term ∈ ts) ≤ n)
    (havg : 0 < tokens.length → 0 < avg) :
    ∀ (queryTerms : List String), ∃ v,
      docScore k1 b lg n docTokens avg queryTerms tokens = some v ∧
      ((∀ x : ℚ, 1 ≤ x → 0 ≤ lg x) → 0 ≤ v) := by
  have main : ∀ (queryTerms : List String) (acc : ℚ),
      ∃ v, (queryTerms.foldlM
        (fun acc term => (termScore k1 b lg n docTokens avg tokens term).map (acc + ·)) acc)
        = some v ∧ ((∀ x : ℚ, 1 ≤ x → 0 ≤ lg x) → 0 ≤ acc → 0 ≤ v) := by
    intro queryTerms
    induction queryTerms with
    | nil => intro acc; exact ⟨acc, rfl, fun _ h => h⟩
    | cons t ts ih =>
      intro acc
      have havg' : 0 < tokens.count t → 0 < avg := by
        intro hc
        apply havg
        have := List.count_pos_iff.mp hc
        exact List.length_pos.mpr (List.ne_nil_of_mem this)
      obtain ⟨v, hv, hv0⟩ := termScore_ok k1 b lg n docTokens avg tokens t
        hk1 hb0 hb1 (hdf t) havg'
      obtain ⟨w, hw, hw0⟩ := ih (acc + v)
      refine ⟨w, ?_, ?_⟩
      · rw [List.foldlM_cons, hv]
        simp only [Option.map_some', Option.some_bind]
        exact hw
      · intro hlg hacc
        have := hv0 hlg
        exact hw0 hlg (by linarith)
  intro queryTerms
  obtain ⟨v, hv, h0⟩ := main queryTerms 0
  exact ⟨v, hv, fun hlg => h0 hlg (le_refl 0)⟩

/-- `mapM` over elementwise-total scoring, with non-negativity of every
output under a side condition `P`. -/
lemma mapM_nonneg {α : Type} (P : Prop) (f : α → Option ℚ) :
    ∀ (l : List α), (∀ x ∈ l, ∃ v, f x = some v ∧ (P → 0 ≤ v)) →
    ∃ ys, l.mapM f = some ys ∧ ys.length = l.length ∧ (P → ∀ y ∈ ys, 0 ≤ y) := by
  intro l
  induction l with
  | nil => intro _; exact ⟨[], rfl, rfl, by simp⟩
  | cons x xs ih =>
    intro h
    obtain ⟨v, hv, hv0⟩ := h x (List.mem_cons_self x xs)
    obtain ⟨ys, hys, hlen, hall⟩ := ih (fun y hy => h y (List.mem_cons_of_mem x hy))
    refine ⟨v :: ys, ?_, by simp [hlen], ?_⟩
    · rw [List.mapM_cons, hv, hys]
      rfl
    · intro hP y hy
      rcases List.mem_cons.mp hy with h1 | h1
      · rw [h1]; exact hv0 hP
      · exact hall hP y h1

/-- Shared evaluation lemma: `score` succeeds with one score per document
whenever `0 ≤ k1`, `0 ≤ b ≤ 1` and the candidate list is non-empty, and the
scores are non-negative whenever the logarithm is non-negative on `[1, ∞)`. -/
lemma score_ok (k1 b : ℚ) (lg : ℚ → ℚ) (q : String) (docs : List String)
    (hdocs : docs ≠ []) (hk1 : 0 ≤ k1) (hb0 : 0 ≤ b) (hb1 : b ≤ 1) :
    ∃ scores, score k1 b lg q docs = some scores ∧
      scores.length = docs.length ∧
      ((∀ x : ℚ, 1 ≤ x → 0 ≤ lg x) → ∀ s ∈ scores, 0 ≤ s) := by
  rw [score, if_neg hdocs]
  by_cases hq : tokenize q = []
  · rw [if_pos hq]
    refine ⟨List.replicate docs.length 0, rfl, List.length_replicate _ _, ?_⟩
    intro _ s hs
    rw [List.eq_of_mem_replicate hs]
  · rw [if_neg hq]
    dsimp only
    have hlennil : (docs.map tokenize).map List.length ≠ [] := by
      simp [hdocs]
    rw [if_pos hlennil]
    have hper : ∀ tokens ∈ docs.map tokenize,
        ∃ v, docScore k1 b lg docs.length (docs.map tokenize)
          ((((docs.map tokenize).map List.length).sum : ℚ) /
            (((docs.map tokenize).map List.length).length : ℚ))
          (tokenize q) tokens = some v ∧
          ((∀ x : ℚ, 1 ≤ x → 0 ≤ lg x) → 0 ≤ v) := by
      intro tokens htokens
      apply docScore_ok k1 b lg docs.length (docs.map tokenize) _ tokens hk1 hb0 hb1
      · intro term
        calc (docs.map tokenize).countP (fun ts => term ∈ ts)
            ≤ (docs.map tokenize).length := List.countP_le_length _
          _ = docs.length := List.length_map _ _
      · intro hlen
        have hmem : tokens.length ∈ ((docs.map tokenize).map List.length) :=
          List.mem_map_of_mem List.length htokens
        have hsum : tokens.length ≤ (((docs.map tokenize).map List.length)).sum :=
          List.single_le_sum (fun x _ => Nat.zero_le x) _ hmem
        have hsumq : (1 : ℚ) ≤ ((((docs.map tokenize).map List.length)).sum : ℚ) := by
          have : 1 ≤ (((docs.map tokenize).map List.length)).sum := by omega
          exact_mod_cast this
        have hlpos : (0 : ℚ) < ((((docs.map tokenize).map List.length)).length : ℚ) := by
          have : 0 < (((docs.map tokenize).map List.length)).length := by
            simp only [List.length_map]
            exact List.length_pos.mpr hdocs
          exact_mod_cast this
        exact div_pos (by linarith) hlpos
    obtain ⟨ys, h1, h2, h3⟩ := mapM_nonneg _ _ (docs.map tokenize) hper
    refine ⟨ys, h1, ?_, h3⟩
    rw [h2, List.length_map]

/-- The claim C7: for every query and non-empty candidate list,
`BM25Scorer.score` (with non-negative `k1`, `b ∈ [0, 1]`, which includes the
defaults `k1 = 3/2`, `b = 3/4`) returns without error: no executed division
has a zero denominator (both `checkedDiv` sites succeed; in particular the
`doc_len / avg_doc_len` division is only reached when some document contains
the term, which forces `avg_doc_len > 0`), and every returned score is a
well-defined, non-negative rational.  `lg` stands for `math.log`, assumed
non-negative on `[1, ∞)` exactly as the real logarithm is; the smoothed
`idf` argument `(n - df + 0.5)/(df + 0.5) + 1` is proved to lie in
`[1, ∞)` using that `df ≤ n` always and `df ≥ 1` for a term present in some
document. -/
theorem claim7_bm25_safe_nonneg (k1 b : ℚ) (lg : ℚ → ℚ) (q : String)
    (docs : List String) (hdocs : docs ≠ []) (hk1 : 0 ≤ k1) (hb0 : 0 ≤ b)
    (hb1 : b ≤ 1) (hlg : ∀ x : ℚ, 1 ≤ x → 0 ≤ lg x) :
    ∃ scores, score k1 b lg q docs = some scores ∧
      scores.length = docs.length ∧ ∀ s ∈ scores, 0 ≤ s := by
  obtain ⟨scores, h1, h2, h3⟩ := score_ok k1 b lg q docs hdocs hk1 hb0 hb1
  exact ⟨scores, h1, h2, h3 hlg⟩

/-- Witness for C7: one document, the constant-zero logarithm (non-negative
on `[1, ∞)`), default `k1` and `b`. -/
theorem claim7_witness :
    ∃ scores, score (3/2) (3/4) (fun _ => 0) "a" ["a"] = some scores ∧
      scores.length = (["a"] : List String).length ∧ ∀ s ∈ scores, 0 ≤ s :=
  claim7_bm25_safe_nonneg (3/2) (3/4) (fun _ => 0) "a" ["a"] (by decide)
    (by norm_num) (by norm_num) (by norm_num) (fun x _ => le_refl 0)

/-! ### Claims C4 and C10: rerank structure -/

/-- `List.get?` agrees with `getD` on in-range indices. -/
lemma get?_eq_getD {α : Type} (xs : List α) (i : Nat) (d : α) (h : i < xs.length) :
    xs.get? i = some (xs.getD i d) := by
  rw [List.getD_eq_getElem?_getD, List.get?_eq_getElem?]
  cases h2 : xs[i]? with
  | none => rw [List.getElem?_eq_none_iff] at h2; omega
  | some v => rfl

/-- Projection through in-range indices succeeds and equals the `getD` map. -/
lemma projAll_eq_map {α : Type} (xs : List α) (d : α) :
    ∀ (idxs : List Nat), (∀ i ∈ idxs, i < xs.length) →
      projAll xs idxs = some (idxs.map (fun i => xs.getD i d)) := by
  intro idxs
  induction idxs with
  | nil => intro _; rfl
  | cons i is ih =>
    intro h
    rw [projAll, get?_eq_getD xs i d (h i (List.mem_cons_self i is))]
    simp only [Option.some_bind, Option.bind_eq_bind]
    rw [ih (fun j hj => h j (List.mem_cons_of_mem i hj))]
    rfl

/-- Projection through in-range indices succeeds, one element per index. -/
lemma projAll_exists {α : Type} (xs : List α) :
    ∀ (idxs : List Nat), (∀ i ∈ idxs, i < xs.length) →
      ∃ ys, projAll xs idxs = some ys ∧ ys.length = idxs.length := by
  intro idxs
  induction idxs with
  | nil => intro _; exact ⟨[], rfl, rfl⟩
  | cons i is ih =>
    intro h
    obtain ⟨ys, hys, hlen⟩ := ih (fun j hj => h j (List.mem_cons_of_mem i hj))
    cases h2 : xs.get? i with
    | none =>
      rw [List.get?_eq_none] at h2
      exact absurd (h i (List.mem_cons_self i is)) (by omega)
    | some v =>
      refine ⟨v :: ys, ?_, by simp [hlen]⟩
      rw [projAll, h2]
      simp only [Option.some_bind, Option.bind_eq_bind]
      rw [hys]
      rfl

/-- Reading the whole list back through `range` is the identity. -/
lemma map_getD_range {α : Type} (d : α) :
    ∀ (xs : List α), (List.range xs.length).map (fun i => xs.getD i d) = xs := by
  intro xs
  induction xs with
  | nil => rfl
  | cons x rest ih =>
    rw [List.length_cons, List.range_succ_eq_map, List.map_cons]
    congr 1
    rw [List.map_map]
    calc (List.range rest.length).map ((fun i => (x :: rest).getD i d) ∘ Nat.succ)
        = (List.range rest.length).map (fun i => rest.getD i d) := by
          apply List.map_congr_left
          intro i _
          rfl
      _ = rest := ih

/-- Truncated stable descending sorts of `range n`: bounds, length, and the
full permutation when nothing is truncated. -/
lemma take_pySortedDesc_spec (key : Nat → ℚ) (n nF : Nat) :
    (∀ i ∈ (pySortedDesc key n).take nF, i < n) ∧
    ((pySortedDesc key n).take nF).length = min nF n ∧
    (n ≤ nF → ((pySortedDesc key n).take nF).Perm (List.range n)) := by
  have hperm : (pySortedDesc key n).Perm (List.range n) :=
    List.perm_insertionSort _ _
  have hlenS : (pySortedDesc key n).length = n := by
    rw [hperm.length_eq, List.length_range]
  refine ⟨?_, ?_, ?_⟩
  · intro i hi
    have h1 : i ∈ pySortedDesc key n := List.mem_of_mem_take hi
    exact List.mem_range.mp (hperm.mem_iff.mp h1)
  · rw [List.length_take, hlenS]
  · intro hle
    rw [List.take_of_length_le (by omega)]
    exact hperm

/-- The selected index list is a truncated permutation of `range n`. -/
lemma rerankIndices_spec (s : List ℚ) (k : ℚ) (n nF : Nat) :
    (∀ i ∈ rerankIndices s k n nF, i < n) ∧
    (rerankIndices s k n nF).length = min nF n ∧
    (n ≤ nF → (rerankIndices s k n nF).Perm (List.range n)) :=
  take_pySortedDesc_spec _ n nF

/-- Master evaluation of `rerank` for a non-empty candidate list. -/
lemma rerank_some {μ : Type} (lg : ℚ → ℚ) (k : ℚ) (q : String)
    (res : QueryResults μ) (nF : Nat)
    (hm : res.metadatas.length = res.documents.length)
    (hd : res.distances.length = res.documents.length)
    (hne : res.documents ≠ []) :
    ∃ (s : List ℚ) (out : QueryResults μ),
      score (3/2) (3/4) lg q res.documents = some s ∧
      rerank lg k q res nF = some out ∧
      projAll res.documents (rerankIndices s k res.documents.length nF) =
        some out.documents ∧
      projAll res.metadatas (rerankIndices s k res.documents.length nF) =
        some out.metadatas ∧
      projAll res.distances (rerankIndices s k res.documents.length nF) =
        some out.distances ∧
      out.documents.length = min nF res.documents.length ∧
      out.metadatas.length = min nF res.documents.length ∧
      out.distances.length = min nF res.documents.length ∧
      (res.documents.length ≤ nF → out.documents.Perm res.documents) := by
  obtain ⟨s, hscore, hslen, _⟩ :=
    score_ok (3/2) (3/4) lg q res.documents hne (by norm_num) (by norm_num)
      (by norm_num)
  obtain ⟨hbound, hlen, hperm⟩ :=
    rerankIndices_spec s k res.documents.length nF
  have hdocs := projAll_eq_map res.documents ""
    (rerankIndices s k res.documents.length nF) hbound
  obtain ⟨ym, hym, hymlen⟩ := projAll_exists res.metadatas
    (rerankIndices s k res.documents.length nF) (by rw [hm]; exact hbound)
  obtain ⟨yx, hyx, hyxlen⟩ := projAll_exists res.distances
    (rerankIndices s k res.documents.length nF) (by rw [hd]; exact hbound)
  have hval : rerank lg k q res nF = some
      { documents := (rerankIndices s k res.documents.length nF).map
          (fun i => res.documents.getD i ""),
        metadatas := ym, distances := yx } := by
    rw [rerank, if_neg hne]
    dsimp only
    rw [hscore]
    simp only [Option.some_bind, Option.bind_eq_bind]
    rw [hdocs]
    simp only [Option.some_bind]
    rw [hym]
    simp only [Option.some_bind]
    rw [hyx]
    simp only [Option.some_bind]
  refine ⟨s, _, hscore, hval, ?_, hym, hyx, ?_, ?_, ?_, ?_⟩
  · exact hdocs
  · rw [List.length_map, hlen]
  · rw [hymlen, hlen]
  · rw [hyxlen, hlen]
  · intro hle
    have hp := hperm hle
    have h2 := hp.map (fun i => res.documents.getD i "")
    rw [map_getD_range "" res.documents] at h2
    exact h2

/-- The claim C4: whenever the three arrays of the bundle are parallel
(equal length `n`), `rerank` succeeds and returns arrays of length exactly
`min n_final n`; an empty candidate list returns the input bundle
unchanged, and `n_final ≥ n` returns all `n` candidates reordered (a
permutation — never padded, never an error). -/
theorem claim4_rerank_truncation {μ : Type} (lg : ℚ → ℚ) (k : ℚ) (q : String)
    (res : QueryResults μ) (nF : Nat)
    (hm : res.metadatas.length = res.documents.length)
    (hd : res.distances.length = res.documents.length) :
    ∃ out, rerank lg k q res nF = some out ∧
      out.documents.length = min nF res.documents.length ∧
      out.metadatas.length = min nF res.documents.length ∧
      out.distances.length = min nF res.documents.length ∧
      (res.documents = [] → out = res) ∧
      (res.documents.length ≤ nF → out.documents.Perm res.documents) := by
  by_cases hne : res.documents = []
  · refine ⟨res, ?_, ?_, ?_, ?_, fun _ => rfl, fun _ => List.Perm.refl _⟩
    · rw [rerank, if_pos hne]
    · rw [hne]
      simp
    · rw [hm, hne]
      simp
    · rw [hd, hne]
      simp
  · obtain ⟨s, out, _, hval, _, _, _, hl1, hl2, hl3, hperm⟩ :=
      rerank_some lg k q res nF hm hd hne
    exact ⟨out, hval, hl1, hl2, hl3, fun h => absurd h hne, hperm⟩

/-- Witness for C4: two parallel candidates, `n_final = 5 ≥ n = 2`. -/
theorem claim4_witness :
    ∃ out, rerank (fun _ => (0 : ℚ)) 60 "x"
      (⟨["a", "b"], [1, 2], [3, 4]⟩ : QueryResults Nat) 5 = some out ∧
      out.documents.length = min 5 2 ∧
      out.documents.Perm ["a", "b"] := by
  obtain ⟨out, h1, h2, _, _, _, h6⟩ :=
    claim4_rerank_truncation (fun _ => (0 : ℚ)) 60 "x"
      (⟨["a", "b"], [1, 2], [3, 4]⟩ : QueryResults Nat) 5 rfl rfl
  exact ⟨out, h1, h2, h6 (by norm_num)⟩

/-- The claim C10: `rerank` never mutates its input — the embedding is a
pure function, so the input bundle is a value that is unchanged by the
call; what remains to verify against the code is that the returned bundle
is freshly re-projected from the input arrays through one in-range index
list (the three list comprehensions of reranker.py lines 189-191), which
this theorem exhibits. -/
theorem claim10_rerank_no_mutation {μ : Type} (lg : ℚ → ℚ) (k : ℚ) (q : String)
    (res : QueryResults μ) (nF : Nat)
    (hm : res.metadatas.length = res.documents.length)
    (hd : res.distances.length = res.documents.length) :
    ∃ (out : QueryResults μ) (idxs : List Nat),
      rerank lg k q res nF = some out ∧
      (∀ i ∈ idxs, i < res.documents.length) ∧
      projAll res.documents idxs = some out.documents ∧
      projAll res.metadatas idxs = some out.metadatas ∧
      projAll res.distances idxs = some out.distances := by
  by_cases hne : res.documents = []
  · refine ⟨res, [], ?_, by simp, ?_, ?_, ?_⟩
    · rw [rerank, if_pos hne]
    · rw [hne]
      rfl
    · have : res.metadatas = [] := List.length_eq_zero.mp (by rw [hm, hne]; rfl)
      rw [this]
      rfl
    · have : res.distances = [] := List.length_eq_zero.mp (by rw [hd, hne]; rfl)
      rw [this]
      rfl
  · obtain ⟨s, out, _, hval, hp1, hp2, hp3, _, _, _, _⟩ :=
      rerank_some lg k q res nF hm hd hne
    obtain ⟨hbound, _, _⟩ := rerankIndices_spec s k res.documents.length nF
    exact ⟨out, rerankIndices s k res.documents.length nF, hval, hbound,
      hp1, hp2, hp3⟩

/-- Witness for C10 at a concrete two-candidate bundle. -/
theorem claim10_witness :
    ∃ (out : QueryResults Nat) (idxs : List Nat),
      rerank (fun _ => (0 : ℚ)) 60 "x"
        (⟨["a", "b"], [1, 2], [3, 4]⟩ : QueryResults Nat) 1 = some out ∧
      (∀ i ∈ idxs, i < 2) ∧
      projAll ["a", "b"] idxs = some out.documents :=
  by
  obtain ⟨out, idxs, h1, h2, h3, _, _⟩ :=
    claim10_rerank_no_mutation (fun _ => (0 : ℚ)) 60 "x"
      (⟨["a", "b"], [1, 2], [3, 4]⟩ : QueryResults Nat) 1 rfl rfl
  exact ⟨out, idxs, h1, h2, h3⟩

/-! ### Claim C2: rank fusion on the 3-candidate agreement example -/

/-- Index computation for the 3-candidate case with BM25 scores strictly
increasing towards the last document (lexical order `[C, B, A]`): the RRF
sort returns `[0, 2, 1]` — A first (stable tie-break with C), B last. -/
lemma rerankIndices_cba (sa sb sc : ℚ) (nF : Nat)
    (hab : sa < sb) (hbc : sb < sc) :
    rerankIndices [sa, sb, sc] 60 3 nF = [0, 2, 1].take nF := by
  have h1 : ¬(sc ≤ sb) := not_le.mpr hbc
  have h2 : ¬(sc ≤ sa) := not_le.mpr (lt_trans hab hbc)
  have h3 : ¬(sb ≤ sa) := not_le.mpr hab
  rw [rerankIndices, pySortedDesc, pySortedDesc]
  have hr3 : List.range 3 = [0, 1, 2] := rfl
  rw [hr3]
  simp only [List.insertionSort, List.orderedInsert, List.getD_cons_zero,
    List.getD_cons_succ, h1, h2, h3, if_false, if_true]
  norm_num [List.enum, List.enumFrom, List.foldl, List.set, List.replicate,
    List.map]

/-- Projecting a 3-element list through `[0, 2, 1].take nF`. -/
lemma proj3_take {α : Type} (a b c : α) (nF : Nat) :
    projAll [a, b, c] ([0, 2, 1].take nF) = some ([a, c, b].take nF) := by
  match nF with
  | 0 => rfl
  | 1 => rfl
  | 2 => rfl
  | n + 3 =>
    rw [List.take_of_length_le (by simp), List.take_of_length_le (by simp)]
    rfl

/-- The amended claim C2: with similarity order `[A, B, C]` (input order)
and lexical BM25 order `[C, B, A]` (scores strictly increasing towards C),
RRF with `k = 60` gives A and C the fused score `1/60 + 1/62` and B the
fused score `1/61 + 1/61 = 2/61`, and `1/60 + 1/62 > 2/61` by strict
convexity of `x ↦ 1/x` — so B is ranked LAST, not first; A wins the A-C tie
by the stable sort's original-index tie-break, and the output order is
`[A, C, B]` (truncated to `n_final`). -/
theorem claim2_rrf_agreement_corrected {μ : Type} (lg : ℚ → ℚ) (q : String)
    (dA dB dC : String) (mA mB mC : μ) (xA xB xC : ℚ) (nF : Nat)
    (sa sb sc : ℚ)
    (hscore : score (3/2) (3/4) lg q [dA, dB, dC] = some [sa, sb, sc])
    (hab : sa < sb) (hbc : sb < sc) :
    rerank lg 60 q (⟨[dA, dB, dC], [mA, mB, mC], [xA, xB, xC]⟩ : QueryResults μ) nF =
      some ⟨[dA, dC, dB].take nF, [mA, mC, mB].take nF, [xA, xC, xB].take nF⟩ := by
  rw [rerank]
  rw [if_neg (by simp : ¬([dA, dB, dC] = ([] : List String)))]
  dsimp only
  rw [hscore]
  simp only [Option.some_bind, Option.bind_eq_bind]
  rw [show ([dA, dB, dC] : List String).length = 3 from rfl]
  rw [rerankIndices_cba sa sb sc nF hab hbc]
  rw [proj3_take dA dB dC nF]
  simp only [Option.some_bind]
  rw [proj3_take mA mB mC nF]
  simp only [Option.some_bind]
  rw [proj3_take xA xB xC nF]
  simp only [Option.some_bind]

/-- Concrete BM25 evaluation backing the C2 analysis: query `"w"` against
`A = ""`, `B = "w"`, `C = "w w"` (with `lg` the identity on the smoothed idf
argument) has scores `[0, 8/5, 64/37]`, i.e. strictly increasing towards C:
the derived lexical rank order is `[C, B, A]`, while the similarity order is
the input order `[A, B, C]`. -/
lemma score_w_cba :
    score (3/2) (3/4) id "w" ["", "w", "w w"] = some [0, 8/5, 64/37] := by
  have tok0 : tokenize "" = [] := by decide
  have tok1 : tokenize "w" = ["w"] := by decide
  have tok2 : tokenize "w w" = ["w", "w"] := by decide
  have wlow : ['w'.toLower].asString = "w" := by decide
  simp +decide only [score, docScore, termScore, checkedDiv, List.mapM,
    List.mapM.loop, List.foldlM, List.map, List.countP, List.countP.go,
    List.count, List.sum, tok0, tok1, tok2, wlow, List.length]
  norm_num

/-- Counterexample to the claim C2 as stated: on a concrete 3-candidate
input whose similarity order is `[A, B, C]` and whose derived lexical order
is `[C, B, A]`, document B's fused score `1/61 + 1/61` does NOT exceed A's
and C's `1/60 + 1/62` (convexity of `x ↦ 1/x` makes it strictly smaller),
and the reranked output is `[A, C, B]` — B is last, not first. -/
theorem claim2_counterexample :
    score (3/2) (3/4) id "w" ["", "w", "w w"] = some [0, 8/5, 64/37] ∧
    ((0 : ℚ) < 8/5 ∧ (8/5 : ℚ) < 64/37) ∧
    rerank id 60 "w" (⟨["", "w", "w w"], [0, 1, 2], [0, 1, 2]⟩ : QueryResults Nat) 3 =
      some ⟨["", "w w", "w"], [0, 2, 1], [0, 2, 1]⟩ ∧
    ¬((1 : ℚ)/(60 + 1) + 1/(60 + 1) > 1/(60 + 0) + 1/(60 + 2)) := by
  refine ⟨score_w_cba, by norm_num, ?_, by norm_num⟩
  rw [rerank]
  rw [if_neg (by simp : ¬(["", "w", "w w"] = ([] : List String)))]
  dsimp only
  rw [score_w_cba]
  simp only [Option.some_bind, Option.bind_eq_bind]
  rw [show (["", "w", "w w"] : List String).length = 3 from rfl]
  rw [rerankIndices_cba 0 (8/5) (64/37) 3 (by norm_num) (by norm_num)]
  rw [proj3_take "" "w" "w w" 3]
  simp only [Option.some_bind]
  rw [proj3_take (0 : Nat) 1 2 3]
  simp only [Option.some_bind]
  rw [proj3_take (0 : ℚ) 1 2 3]
  simp only [Option.some_bind]
  rfl

/-- Witness for the amended C2 at the concrete counterexample input. -/
theorem claim2_witness :
    rerank id 60 "w" (⟨["", "w", "w w"], ([10, 20, 30] : List Nat), [0, 1, 2]⟩ :
        QueryResults Nat) 3 =
      some ⟨List.take 3 ["", "w w", "w"], List.take 3 [10, 30, 20],
        List.take 3 [0, 2, 1]⟩ :=
  claim2_rrf_agreement_corrected id "w" "" "w" "w w" 10 20 30 0 1 2 3
    0 (8/5) (64/37) score_w_cba (by norm_num) (by norm_num)

end EdgarSpec





